import Mathlib

/-!
Verification of the slices / set / channels utility library.

The Go code is shallowly embedded:

* A Go slice value is a header over a backing buffer.  `GoSlice.arr` is the
  backing buffer from the slice's origin through its capacity, `GoSlice.len`
  is the visible length; the capacity is `arr.length`.  The visible elements
  are `arr.take len`.
* Go's `copy` has memmove semantics (it behaves as if the source were read
  in full before the destination is written); it is modelled by `writeAt`.
* `append` reuses the destination buffer when the total fits its capacity and
  otherwise allocates afresh; a fresh allocation is modelled with the least
  capacity `append` guarantees (the new length).
* Bounds violations terminate the operation; fallible operations return
  `Except buf r`, where an `.error buf` carries the state of the backing
  buffer at the moment of the failure.
* Go's `==` and `<` on a concrete element type are passed in explicitly as
  boolean functions (`beq`, `lt`); the type `F64` models `float64` values
  with its IEEE-style `==` and `<` (a NaN compares false against everything).
* `containsPointer` is runtime reflection; its (input-independent) verdict is
  passed in as the boolean `hasPtr`.
-/

namespace Spec2Proof

/-- A Go slice header: backing buffer (origin through capacity) and length. -/
structure GoSlice (E : Type) where
  arr : List E
  len : Nat
  deriving DecidableEq

/-- The capacity of a slice: the extent of its backing buffer. -/
def GoSlice.cap {E : Type} (s : GoSlice E) : Nat := s.arr.length

/-- The visible elements of a slice. -/
def GoSlice.toList {E : Type} (s : GoSlice E) : List E := s.arr.take s.len

/-- Well-formedness of a slice header: the length is within the capacity.
Go's runtime maintains this for every slice it produces. -/
def GoSlice.WF {E : Type} (s : GoSlice E) : Prop := s.len ≤ s.arr.length

/-- Model of `copy(buf[pos:pos+len(vals)], vals)`: overwrite `vals.length`
slots of `buf` starting at `pos` (memmove semantics). -/
def writeAt {E : Type} (buf : List E) (pos : Nat) (vals : List E) : List E :=
  buf.take pos ++ vals ++ buf.drop (pos + vals.length)

/-- Source `Equal`: same length and element-wise `==`, comparing in
increasing index order.  `beq` is Go's `==` at the element type. -/
def Equal {E : Type} (beq : E → E → Bool) (s1 s2 : List E) : Bool :=
  if s1.length ≠ s2.length then false
  else (s1.zip s2).all fun p => beq p.1 p.2

/-- Source `Equal` on slice headers (only the visible elements matter;
in particular a nil slice and an empty non-nil slice have no visible
elements and compare equal). -/
def EqualS {E : Type} (beq : E → E → Bool) (s1 s2 : GoSlice E) : Bool :=
  Equal beq s1.toList s2.toList

/-- Loop of the source `Compare`: walk `s1` with index `i` into `s2`;
return `+1` when `s1` outlives `s2`, the verdict of the first pair that
compares strictly, and otherwise fall through to the length tie-break. -/
def compareLoopGo {E : Type} (lt : E → E → Bool) (l1 : Nat) (s2 : List E) :
    List E → Nat → Int
  | [], _ => if l1 < s2.length then -1 else 0
  | v1 :: rest, i =>
    if s2.length ≤ i then 1
    else
      let v2 := s2.getD i v1
      if lt v1 v2 then -1
      else if lt v2 v1 then 1
      else compareLoopGo lt l1 s2 rest (i + 1)

/-- Source `Compare`: lexicographic three-way comparison using the element
ordering `lt` (Go's `<` at the element type). -/
def Compare {E : Type} (lt : E → E → Bool) (s1 s2 : List E) : Int :=
  compareLoopGo lt s1.length s2 s1 0

/-- Model of Go `float64` values as they matter to ordering: a numeric
value (idealised as a rational) or a NaN. -/
inductive F64 : Type
  | nan : F64
  | val (q : ℚ) : F64
  deriving DecidableEq

/-- Go `==` on `float64`: NaN is unequal to everything, itself included. -/
def F64.beq : F64 → F64 → Bool
  | .val a, .val b => decide (a = b)
  | _, _ => false

/-- Go `<` on `float64`: every comparison against a NaN is false. -/
def F64.blt : F64 → F64 → Bool
  | .val a, .val b => decide (a < b)
  | _, _ => false

/-- Go `<=` on `float64`: every comparison against a NaN is false. -/
def F64.ble : F64 → F64 → Bool
  | .val a, .val b => decide (a ≤ b)
  | _, _ => false

/-- Whether a `float64` model value is a NaN. -/
def F64.isNan : F64 → Bool
  | .nan => true
  | .val _ => false

/-- Model of the zeroing attempt `_ = append(tail, make([]E, m)...)` where
`tail` is the final `m = oldLen - keep` buffer slots: when `m` further slots
of spare capacity exist the appended zeros land at positions
`[oldLen, oldLen+m)` of the buffer; otherwise they go to a discarded fresh
buffer and the shared buffer is untouched. -/
def zeroTail {E : Type} (keep oldLen bufCap : Nat) (zero : E) (hasPtr : Bool)
    (buf : List E) : List E :=
  if hasPtr ∧ (oldLen - keep) + (oldLen - keep) ≤ bufCap - keep then
    writeAt buf oldLen (List.replicate (oldLen - keep) zero)
  else buf

/-- Source `Insert`: insert `v` at index `i`, reusing the buffer when the
total fits the capacity and allocating afresh otherwise.  An out-of-range
`i` trips a bounds check before any slot is written. -/
def Insert {E : Type} (s : GoSlice E) (i : Int) (v : List E) :
    Except (List E) (GoSlice E) :=
  if s.len + v.length ≤ s.cap then
    -- s2 := s[:tot]; copy(s2[i+len(v):], s[i:]); copy(s2[i:], v)
    if ¬(0 ≤ i + v.length ∧ i + v.length ≤ ((s.len + v.length : Nat) : Int)) then .error s.arr
    else if ¬(0 ≤ i ∧ i ≤ (s.len : Int)) then .error s.arr
    else
      .ok ⟨writeAt (writeAt s.arr (i.toNat + v.length)
              ((s.arr.drop i.toNat).take (s.len - i.toNat))) i.toNat v,
            s.len + v.length⟩
  else
    -- s2 := make(S, tot); copy(s2, s[:i]); copy(s2[i:], v); copy(s2[i+len(v):], s[i:])
    if ¬(0 ≤ i ∧ i ≤ (s.cap : Int)) then .error s.arr
    else if ¬(i ≤ (s.len : Int)) then .error s.arr
    else
      .ok ⟨s.arr.take i.toNat ++ v ++ (s.arr.drop i.toNat).take (s.len - i.toNat),
            s.len + v.length⟩

/-- Source `Delete`: `_ = s[i:j]` checks `0 ≤ i ≤ j ≤ cap`; the `s[j:]`
inside the append additionally requires `j ≤ len`.  The tail is then shifted
left in place.  When the element type carries pointers, the source tries to
zero the vacated tail slots with
`_ = append([]E(s[len(s)-(j-i):]), make([]E, j-i)...)`: that appends the
zeros after position `len(s)` of the buffer (when `j-i` spare capacity
exists; otherwise into a discarded fresh buffer), which is modelled here
exactly as the runtime performs it. -/
def Delete {E : Type} (s : GoSlice E) (zero : E) (hasPtr : Bool) (i j : Int) :
    Except (List E) (GoSlice E) :=
  if ¬(0 ≤ i ∧ i ≤ j ∧ j ≤ (s.cap : Int)) then .error s.arr
  else if ¬(j ≤ (s.len : Int)) then .error s.arr
  else
    -- s2 := append(s[:i], s[j:]...) : always within capacity, shifts in place
    .ok ⟨zeroTail (s.len - (j.toNat - i.toNat)) s.len s.cap zero hasPtr
          (writeAt s.arr i.toNat ((s.arr.drop j.toNat).take (s.len - j.toNat))),
         s.len - (j.toNat - i.toNat)⟩

/-- Source `Replace`: `_ = s[i:j]` checks `0 ≤ i ≤ j ≤ cap`, computing
`len(s[j:])` requires `j ≤ len`; then a single fused copy, in place when the
total fits the capacity and into a fresh buffer otherwise. -/
def Replace {E : Type} (s : GoSlice E) (i j : Int) (v : List E) :
    Except (List E) (GoSlice E) :=
  if ¬(0 ≤ i ∧ i ≤ j ∧ j ≤ (s.cap : Int)) then .error s.arr
  else if ¬(j ≤ (s.len : Int)) then .error s.arr
  else if i.toNat + v.length + (s.len - j.toNat) ≤ s.cap then
    -- s2 := s[:tot]; copy(s2[i+len(v):], s[j:]); copy(s2[i:], v)
    .ok ⟨writeAt (writeAt s.arr (i.toNat + v.length)
            ((s.arr.drop j.toNat).take (s.len - j.toNat))) i.toNat v,
          i.toNat + v.length + (s.len - j.toNat)⟩
  else
    .ok ⟨s.arr.take i.toNat ++ v ++ (s.arr.drop j.toNat).take (s.len - j.toNat),
          i.toNat + v.length + (s.len - j.toNat)⟩

/-- Loop of the source `Compact`: `for j := 1; j < n; j++`, keeping `s[j]`
(writing it at position `i` when `j ≠ i`) whenever `s[j-1] != s[j]`.  The
iteration count `n - j` is carried as structural fuel. -/
def compactLoop {E : Type} [DecidableEq E] (z : E) :
    Nat → List E → Nat → Nat → List E × Nat
  | 0, buf, i, _ => (buf, i)
  | fuel + 1, buf, i, j =>
    if buf.getD (j - 1) z ≠ buf.getD j z then
      compactLoop z fuel (if j ≠ i then buf.set i (buf.getD j z) else buf) (i + 1) (j + 1)
    else
      compactLoop z fuel buf i (j + 1)

/-- Source `Compact`: drop consecutive runs of equal elements in place.
When the element type carries pointers the source tries to zero the
discarded tail with `_ = append(s[i:], make([]E, len(s)-i)...)`, which
appends the zeros after position `len(s)` (when the spare capacity allows;
otherwise into a discarded fresh buffer) — modelled exactly as performed. -/
def Compact {E : Type} [DecidableEq E] (s : GoSlice E) (zero : E) (hasPtr : Bool) :
    GoSlice E :=
  if s.len < 2 then s
  else
    ⟨zeroTail (compactLoop zero (s.len - 1) s.arr 1 1).2 s.len s.cap zero hasPtr
        (compactLoop zero (s.len - 1) s.arr 1 1).1,
     (compactLoop zero (s.len - 1) s.arr 1 1).2⟩

/-- Source `Grow`: fail on negative `n`; if the spare capacity does not
cover `n`, reallocate via `append(s[:cap(s)], make([]E, n)...)[:len(s)]`
(the fresh buffer is modelled with the least capacity append guarantees). -/
def Grow {E : Type} (s : GoSlice E) (zero : E) (n : Int) :
    Except Unit (GoSlice E) :=
  if n < 0 then .error ()
  else if 0 < n - ((s.cap : Int) - (s.len : Int)) then
    .ok ⟨s.arr ++ List.replicate (n - ((s.cap : Int) - (s.len : Int))).toNat zero, s.len⟩
  else .ok s

/-- Source `Max` over a non-empty argument list: seed with `s[0]` (which
faults on an empty list, modelled as `none`) and replace the running value
whenever `max < v`.  `lt` is Go's `<` at the element type, covering every
`constraints.Ordered` instantiation — `float64` (`F64.blt`) included. -/
def Max {E : Type} (lt : E → E → Bool) : List E → Option E
  | [] => none
  | x :: rest => some ((x :: rest).foldl (fun m v => if lt m v then v else m) x)

/-- Source `Min` over a non-empty argument list: seed with `s[0]` (which
faults on an empty list, modelled as `none`) and replace the running value
whenever `v < min`.  `lt` is Go's `<` at the element type, covering every
`constraints.Ordered` instantiation — `float64` (`F64.blt`) included. -/
def Min {E : Type} (lt : E → E → Bool) : List E → Option E
  | [] => none
  | x :: rest => some ((x :: rest).foldl (fun m v => if lt v m then v else m) x)

/-- Source `Set.IntersectWith`: delete from `s` every element absent from
`t`, reporting whether anything was deleted.  Go's map iteration order is
indeterminate, but the result is order-independent, so the set is modelled
extensionally as a `Finset`. -/
def IntersectWith {E : Type} [DecidableEq E] (s t : Finset E) : Finset E × Bool :=
  (s.filter (fun x => x ∈ t), decide (∃ x ∈ s, x ∉ t))

/-- Source `Set.SubsetOf`: fast-fail when `s` has more elements than `t`,
otherwise check membership of every element of `s` in `t`. -/
def SubsetOf {E : Type} [DecidableEq E] (s t : Finset E) : Bool :=
  if t.card < s.card then false
  else decide (∀ x ∈ s, x ∈ t)

/-- Source `FanOut` worker `k` of `n`, with no cancellation: it forwards to
its own output channel, in order, exactly the input elements whose receive
it wins.  The race between the `n` workers receiving from the shared input
channel is quantified away as a scheduler `d`, assigning to each input
position (counted from `idx`) the worker that receives it; the Go runtime
delivers each sent element to exactly one receiver.  The worker closes its
channel when the input is drained, i.e. the output list below is complete. -/
def FanOut {E : Type} (n : Nat) (d : Nat → Fin n) (k : Fin n) :
    List E → Nat → List E
  | [], _ => []
  | v :: rest, idx =>
    (if d idx = k then [v] else []) ++ FanOut n d k rest (idx + 1)

/-! Specification-side definitions, written from the claims' words, to be
compared with the translations above. -/

/-- Claimed behaviour of `Compare` (auxiliary): walk both sequences; the
first strictly comparing pair decides, a strict prefix makes the shorter
sequence smaller. -/
def specCompareC4 {E : Type} (lt : E → E → Bool) : List E → List E → Int
  | [], [] => 0
  | [], _ :: _ => -1
  | _ :: _, [] => 1
  | a :: s1, b :: s2 =>
    if lt a b then -1
    else if lt b a then 1
    else specCompareC4 lt s1 s2

/-- Claimed behaviour of `Compact` (auxiliary): keep `y` exactly when it
differs from its predecessor `prev`. -/
def dedupRunsAux {E : Type} [DecidableEq E] (prev : E) : List E → List E
  | [] => []
  | y :: rest =>
    if y = prev then dedupRunsAux y rest
    else y :: dedupRunsAux y rest

/-- Claimed behaviour of `Compact`: remove consecutive runs of
adjacent-equal elements, keeping the first element of each run. -/
def dedupRuns {E : Type} [DecidableEq E] : List E → List E
  | [] => []
  | x :: rest => x :: dedupRunsAux x rest

/-! Helper lemmas about the buffer model. -/

theorem writeAt_length {E : Type} (buf vals : List E) (pos : Nat)
    (h : pos + vals.length ≤ buf.length) :
    (writeAt buf pos vals).length = buf.length := by
  simp only [writeAt, List.length_append, List.length_take, List.length_drop]
  omega

theorem writeAt_take_of_le {E : Type} (buf vals : List E) (pos m : Nat)
    (hm : m ≤ pos) (hmb : m ≤ buf.length) :
    (writeAt buf pos vals).take m = buf.take m := by
  simp only [writeAt, List.append_assoc]
  rw [List.take_append_of_le_length (by simp; omega), List.take_take,
    Nat.min_eq_left hm]

theorem drop_app_len {E : Type} (a b : List E) (n : Nat) (h : n = a.length) :
    (a ++ b).drop n = b := by
  subst h
  exact List.drop_left a b

theorem take_two_append {E : Type} (a b c : List E) (m : Nat)
    (hm : m = a.length + b.length) :
    (a ++ (b ++ c)).take m = a ++ b := by
  subst hm
  rw [List.take_append, List.take_left]

theorem take_three_append {E : Type} (a b c d : List E) (m : Nat)
    (hm : m = a.length + b.length + c.length) :
    (a ++ (b ++ (c ++ d))).take m = a ++ (b ++ c) := by
  subst hm
  rw [Nat.add_assoc, List.take_append, List.take_append, List.take_left]

theorem toList_take {E : Type} (s : GoSlice E) (i : Nat) (hi : i ≤ s.len) :
    s.toList.take i = s.arr.take i := by
  rw [GoSlice.toList, List.take_take, Nat.min_eq_left hi]

theorem toList_drop {E : Type} (s : GoSlice E) (j : Nat) :
    s.toList.drop j = (s.arr.drop j).take (s.len - j) := by
  rw [GoSlice.toList, List.drop_take]

theorem toList_length {E : Type} (s : GoSlice E) (hwf : s.WF) :
    s.toList.length = s.len := by
  simp only [GoSlice.toList, List.length_take]
  exact Nat.min_eq_left hwf

theorem zeroTail_length {E : Type} (keep oldLen bufCap : Nat) (z : E)
    (hp : Bool) (buf : List E) (hb : bufCap ≤ buf.length)
    (hk : keep ≤ oldLen) (ho : oldLen ≤ bufCap) :
    (zeroTail keep oldLen bufCap z hp buf).length = buf.length := by
  rw [zeroTail]
  split
  · next hc =>
    rw [writeAt_length]
    simp only [List.length_replicate]
    omega
  · rfl

theorem zeroTail_take {E : Type} (keep oldLen bufCap : Nat) (z : E)
    (hp : Bool) (buf : List E) (m : Nat) (hm : m ≤ oldLen)
    (hmb : m ≤ buf.length) :
    (zeroTail keep oldLen bufCap z hp buf).take m = buf.take m := by
  rw [zeroTail]
  split
  · exact writeAt_take_of_le _ _ _ _ hm hmb
  · rfl

/-- The fused shift-then-fill copy pattern shared by `Insert` and `Replace`:
with the tail `arr[q:L)` shifted to position `i + |v|` and `v` written at
position `i`, the first `i + |v| + (L - q)` buffer slots read
`arr[0:i) ++ v ++ arr[q:L)`. -/
theorem fused_write_take {E : Type} (arr v : List E) (i q L : Nat)
    (hq : q ≤ L) (hL : L ≤ arr.length)
    (htot : i + v.length + (L - q) ≤ arr.length) :
    (writeAt (writeAt arr (i + v.length) ((arr.drop q).take (L - q))) i v).take
        (i + v.length + (L - q)) =
      arr.take i ++ (v ++ (arr.drop q).take (L - q)) := by
  have hT : ((arr.drop q).take (L - q)).length = L - q := by
    simp only [List.length_take, List.length_drop]
    omega
  have hX : (arr.take (i + v.length)).length = i + v.length :=
    List.length_take_of_le (by omega)
  simp only [writeAt, List.append_assoc, hT]
  have e1 : ((arr.take (i + v.length)) ++ ((arr.drop q).take (L - q) ++
      arr.drop (i + v.length + (L - q)))).take i = arr.take i := by
    rw [List.take_append_of_le_length (by rw [hX]; omega), List.take_take,
      Nat.min_eq_left (by omega)]
  have e2 : ((arr.take (i + v.length)) ++ ((arr.drop q).take (L - q) ++
      arr.drop (i + v.length + (L - q)))).drop (i + v.length) =
      (arr.drop q).take (L - q) ++ arr.drop (i + v.length + (L - q)) :=
    drop_app_len _ _ _ hX.symm
  rw [e1, e2]
  rw [take_three_append _ _ _ _ _ (by rw [List.length_take_of_le (by omega), hT])]

/-- The successful path of `Delete` for in-range indices: the result header
shares the (shifted) buffer, its visible elements are the survivors, and
the buffer keeps its extent. -/
theorem delete_ok {E : Type} (s : GoSlice E) (z : E) (hp : Bool) (i j : Nat)
    (hij : i ≤ j) (hj : j ≤ s.len) (hwf : s.WF) :
    ∃ r, Delete s z hp i j = .ok r ∧
      r.len = s.len - (j - i) ∧
      r.arr.length = s.arr.length ∧
      r.toList = s.toList.take i ++ s.toList.drop j ∧
      r.WF := by
  have h1 : s.len ≤ s.cap := hwf
  have h2 : s.cap = s.arr.length := rfl
  rw [Delete, if_neg (by push_neg; refine ⟨by omega, by omega, by omega⟩),
    if_neg (by omega)]
  simp only [Int.toNat_natCast]
  have hTlen : ((s.arr.drop j).take (s.len - j)).length = s.len - j := by
    simp only [List.length_take, List.length_drop]
    omega
  have hb1 : (writeAt s.arr i ((s.arr.drop j).take (s.len - j))).length =
      s.arr.length :=
    writeAt_length _ _ _ (by rw [hTlen]; omega)
  have hb2 : (zeroTail (s.len - (j - i)) s.len s.cap z hp
      (writeAt s.arr i ((s.arr.drop j).take (s.len - j)))).length =
      s.arr.length := by
    rw [zeroTail_length _ _ _ _ _ _ (by omega) (by omega) (by omega)]
    exact hb1
  refine ⟨_, rfl, rfl, hb2, ?_, ?_⟩
  · show (zeroTail _ _ _ _ _ _).take (s.len - (j - i)) = _
    rw [zeroTail_take _ _ _ _ _ _ _ (by omega) (by omega),
      toList_take s i (by omega), toList_drop]
    simp only [writeAt, List.append_assoc]
    rw [take_two_append _ _ _ _ (by rw [List.length_take_of_le (by omega), hTlen]; omega)]
  · show s.len - (j - i) ≤ _
    rw [hb2]
    omega

/-- The successful path of `Insert` for an in-range index: the visible
result is `s[0:i) ++ v ++ s[i:len)`, on both the in-place and the
reallocating path. -/
theorem insert_ok {E : Type} (s : GoSlice E) (i : Nat) (v : List E)
    (hi : i ≤ s.len) (hwf : s.WF) :
    ∃ r, Insert s i v = .ok r ∧
      r.toList = s.toList.take i ++ (v ++ s.toList.drop i) := by
  have h1 : s.len ≤ s.cap := hwf
  have h2 : s.cap = s.arr.length := rfl
  rw [Insert]
  by_cases hc : s.len + v.length ≤ s.cap
  · rw [if_pos hc, if_neg (by push_neg; refine ⟨by omega, by omega⟩),
      if_neg (by push_neg; refine ⟨by omega, by omega⟩)]
    simp only [Int.toNat_natCast]
    refine ⟨_, rfl, ?_⟩
    show (writeAt (writeAt s.arr _ _) _ _).take (s.len + v.length) = _
    have hsplit : s.len + v.length = i + v.length + (s.len - i) := by omega
    rw [hsplit, fused_write_take s.arr v i i s.len (by omega) (by omega) (by omega),
      toList_take s i (by omega), toList_drop]
  · rw [if_neg hc, if_neg (by push_neg; refine ⟨by omega, by omega⟩),
      if_neg (by omega)]
    simp only [Int.toNat_natCast]
    refine ⟨_, rfl, ?_⟩
    show (s.arr.take i ++ v ++ _).take (s.len + v.length) = _
    rw [List.append_assoc,
      List.take_of_length_le (by
        simp only [List.length_append, List.length_take, List.length_drop]
        omega),
      toList_take s i (by omega), toList_drop]

/-- The successful path of `Replace` for in-range indices: the visible
result is `s[0:i) ++ v ++ s[j:len)`, on both the in-place and the
reallocating path. -/
theorem replace_ok {E : Type} (s : GoSlice E) (i j : Nat) (v : List E)
    (hij : i ≤ j) (hj : j ≤ s.len) (hwf : s.WF) :
    ∃ r, Replace s i j v = .ok r ∧
      r.toList = s.toList.take i ++ (v ++ s.toList.drop j) := by
  have h1 : s.len ≤ s.cap := hwf
  have h2 : s.cap = s.arr.length := rfl
  rw [Replace, if_neg (by push_neg; refine ⟨by omega, by omega, by omega⟩),
    if_neg (by omega)]
  simp only [Int.toNat_natCast]
  by_cases hc : i + v.length + (s.len - j) ≤ s.cap
  · rw [if_pos hc]
    refine ⟨_, rfl, ?_⟩
    show (writeAt (writeAt s.arr _ _) _ _).take (i + v.length + (s.len - j)) = _
    rw [fused_write_take s.arr v i j s.len (by omega) (by omega) (by omega),
      toList_take s i (by omega), toList_drop]
  · rw [if_neg hc]
    refine ⟨_, rfl, ?_⟩
    show (s.arr.take i ++ v ++ _).take (i + v.length + (s.len - j)) = _
    rw [List.append_assoc,
      List.take_of_length_le (by
        simp only [List.length_append, List.length_take, List.length_drop]
        omega),
      toList_take s i (by omega), toList_drop]

/-- C3: for every slice and every index pair violating `0 ≤ i ≤ j ≤ len(s)`,
`Delete(s, i, j)` aborts on a bounds check, and the failure fires before any
slot of the backing buffer has been written: the buffer at the failure is
exactly the input buffer. -/
theorem delete_bounds_fault {E : Type} (s : GoSlice E) (z : E) (hp : Bool)
    (i j : Int) (hwf : s.WF)
    (hbad : ¬(0 ≤ i ∧ i ≤ j ∧ j ≤ (s.len : Int))) :
    Delete s z hp i j = .error s.arr := by
  have h1 : s.len ≤ s.cap := hwf
  rw [Delete]
  by_cases hx : ¬(0 ≤ i ∧ i ≤ j ∧ j ≤ (s.cap : Int))
  · rw [if_pos hx]
  · rw [if_neg hx, if_pos (by push_neg at hx hbad; omega)]

/-- Witness for C3 at `s = ⟨[1,2],2⟩`, `i = 0`, `j = 5`. -/
theorem delete_bounds_fault_wit :
    Delete (⟨[1, 2], 2⟩ : GoSlice Nat) 0 false 0 5 = .error [1, 2] :=
  delete_bounds_fault ⟨[1, 2], 2⟩ 0 false 0 5 (by norm_num [GoSlice.WF])
    (by decide)

/-- C2 is false of the code: `Delete` on a pointer-carrying element type
leaves the vacated tail slot of the backing buffer holding its old element
(the zeroing append lands after position `len(s)`, or in a discarded fresh
buffer), and `Compact` likewise.  Here `Option Nat` models `*int` with
`none` the zero value: after `Delete([p1,p2,p3], 0, 1)` the vacated buffer
position 2 still holds `some 3`, and after `Compact([q1,q1,q2])` discards
one element the buffer position 2 still holds `some 2`. -/
theorem delete_compact_no_zeroing :
    Delete (⟨[some 1, some 2, some 3], 3⟩ : GoSlice (Option Nat)) none true 0 1 =
      .ok ⟨[some 2, some 3, some 3], 2⟩ ∧
    (⟨[some 2, some 3, some 3], 2⟩ : GoSlice (Option Nat)).arr.getD 2 none = some 3 ∧
    Compact (⟨[some 1, some 1, some 2], 3⟩ : GoSlice (Option Nat)) none true =
      ⟨[some 1, some 2, some 2], 2⟩ ∧
    (⟨[some 1, some 2, some 2], 2⟩ : GoSlice (Option Nat)).arr.getD 2 none = some 2 := by
  refine ⟨?_, rfl, ?_, rfl⟩ <;> rfl

/-- C7: `Grow(s, n)` with `n ≥ 0` keeps the length and the visible elements
and ends with capacity at least `len(s) + n`; `Grow(s, n)` with `n < 0`
aborts. -/
theorem grow_spec {E : Type} (s : GoSlice E) (z : E) (n : Int) (hwf : s.WF) :
    (0 ≤ n → ∃ r, Grow s z n = .ok r ∧ r.len = s.len ∧ r.toList = s.toList ∧
      (s.len : Int) + n ≤ (r.cap : Int)) ∧
    (n < 0 → Grow s z n = .error ()) := by
  have h1 : s.len ≤ s.cap := hwf
  have h2 : s.cap = s.arr.length := rfl
  constructor
  · intro hn
    rw [Grow, if_neg (by omega)]
    by_cases hm : 0 < n - ((s.cap : Int) - (s.len : Int))
    · rw [if_pos hm]
      refine ⟨_, rfl, rfl, ?_, ?_⟩
      · show (s.arr ++ _).take s.len = s.toList
        rw [GoSlice.toList, List.take_append_of_le_length (by omega)]
      · show (s.len : Int) + n ≤ (((s.arr ++ _).length : Nat) : Int)
        simp only [List.length_append, List.length_replicate]
        omega
    · rw [if_neg hm]
      exact ⟨s, rfl, rfl, rfl, by omega⟩
  · intro hn
    rw [Grow, if_pos hn]

/-- Witness for C7 at `s = ⟨[1,2,3],3⟩`, `n = 4` and `n = -1`. -/
theorem grow_spec_wit :
    (∃ r, Grow (⟨[1, 2, 3], 3⟩ : GoSlice Nat) 0 4 = .ok r ∧
      r.len = 3 ∧ r.toList = [1, 2, 3] ∧ (3 : Int) + 4 ≤ (r.cap : Int)) ∧
    Grow (⟨[1, 2, 3], 3⟩ : GoSlice Nat) 0 (-1) = .error () :=
  ⟨(grow_spec ⟨[1, 2, 3], 3⟩ 0 4 (by norm_num [GoSlice.WF])).1 (by decide),
   (grow_spec ⟨[1, 2, 3], 3⟩ 0 (-1) (by norm_num [GoSlice.WF])).2 (by decide)⟩

/-- Auxiliary: `(a ++ b).take n = a` when `n` is the length of `a`. -/
theorem take_app_len {E : Type} (a b : List E) (n : Nat) (h : n = a.length) :
    (a ++ b).take n = a := by
  subst h
  exact List.take_left a b

/-- C1: for in-range `0 ≤ i ≤ j ≤ len(s)` and any values `v`,
`Replace(s, i, j, v)` and `Insert(Delete(s, i, j), i, v)` both succeed and
return element-wise equal slices. -/
theorem replace_eq_insert_delete {E : Type} (s : GoSlice E) (z : E)
    (hp : Bool) (i j : Int) (v : List E) (hwf : s.WF)
    (h0 : 0 ≤ i) (hij : i ≤ j) (hj : j ≤ (s.len : Int)) :
    (Replace s i j v).map GoSlice.toList =
      ((Delete s z hp i j).bind fun sd => Insert sd i v).map GoSlice.toList := by
  obtain ⟨i, rfl⟩ : ∃ k : Nat, i = (k : Int) := ⟨i.toNat, (Int.toNat_of_nonneg h0).symm⟩
  obtain ⟨j, rfl⟩ : ∃ k : Nat, j = (k : Int) := ⟨j.toNat, (Int.toNat_of_nonneg (by omega)).symm⟩
  have hij' : i ≤ j := by exact_mod_cast hij
  have hj' : j ≤ s.len := by exact_mod_cast hj
  obtain ⟨rr, hrr, hrrl⟩ := replace_ok s i j v hij' hj' hwf
  obtain ⟨rd, hrd, hrdlen, hrdarr, hrdl, hrdwf⟩ := delete_ok s z hp i j hij' hj' hwf
  have hid : i ≤ rd.len := by omega
  obtain ⟨ri, hri, hril⟩ := insert_ok rd i v hid hrdwf
  rw [hrr, hrd]
  show _ = Except.map GoSlice.toList (Except.bind _ _)
  rw [Except.bind, hri]
  show Except.ok rr.toList = Except.ok ri.toList
  have hlen : (s.toList.take i).length = i :=
    List.length_take_of_le (by rw [toList_length s hwf]; omega)
  rw [hrrl, hril, hrdl, take_app_len _ _ _ hlen.symm, drop_app_len _ _ _ hlen.symm]

/-- Witness for C1 at `s = ⟨[1,2,3,4],4⟩`, `i = 1`, `j = 2`, `v = [5,6]`. -/
theorem replace_eq_insert_delete_wit :
    (Replace (⟨[1, 2, 3, 4], 4⟩ : GoSlice Nat) 1 2 [5, 6]).map GoSlice.toList =
      ((Delete (⟨[1, 2, 3, 4], 4⟩ : GoSlice Nat) 0 false 1 2).bind
        fun sd => Insert sd 1 [5, 6]).map GoSlice.toList :=
  replace_eq_insert_delete ⟨[1, 2, 3, 4], 4⟩ 0 false 1 2 [5, 6]
    (by norm_num [GoSlice.WF]) (by decide) (by decide) (by decide)

/-- C5 as stated is false of the code: `Equal(s, s)` is `false` for the
float sequence `s = [NaN]`, because Go's `==` on `float64` never holds at a
NaN (the source documents this: "Floating point NaNs are not considered
equal"). -/
theorem equal_refl_nan_cex : Equal F64.beq [F64.nan] [F64.nan] = false := rfl

/-- Auxiliary: zipping a list with itself pairs each element with itself. -/
theorem zip_self {E : Type} (l : List E) : l.zip l = l.map fun a => (a, a) := by
  induction l with
  | nil => rfl
  | cons a t ih => simp [List.zip_cons_cons, ih]

/-- C5 amended: `Equal(s, s)` is true whenever every element of `s` is
`==`-reflexive (every comparable Go type except floats containing NaN);
`Equal` is symmetric whenever the element `==` is (Go's `==` always is);
and any two length-zero slices — nil or empty non-nil — compare equal. -/
theorem equal_spec_amended :
    (∀ (E : Type) (beq : E → E → Bool) (s : List E),
      (∀ a ∈ s, beq a a = true) → Equal beq s s = true) ∧
    (∀ (E : Type) (beq : E → E → Bool),
      (∀ a b, beq a b = beq b a) →
      ∀ s1 s2 : List E, Equal beq s1 s2 = Equal beq s2 s1) ∧
    (∀ (E : Type) (beq : E → E → Bool) (s1 s2 : GoSlice E),
      s1.len = 0 → s2.len = 0 → EqualS beq s1 s2 = true) := by
  refine ⟨?_, ?_, ?_⟩
  · intro E beq s h
    rw [Equal, if_neg (by simp), List.all_eq_true]
    intro p hp
    rw [zip_self] at hp
    obtain ⟨a, ha, rfl⟩ := List.mem_map.1 hp
    exact h a ha
  · intro E beq hsym s1 s2
    have hall : ∀ l : List (E × E),
        l.all (fun p => beq p.1 p.2) = l.all (fun p => beq p.2 p.1) := by
      intro l
      induction l with
      | nil => rfl
      | cons p t ih => simp [List.all_cons, ih, hsym p.1 p.2]
    by_cases h : s1.length = s2.length
    · rw [Equal, Equal, if_neg (by omega), if_neg (by omega),
        ← List.zip_swap s1 s2, List.all_map, hall]
      rfl
    · rw [Equal, Equal, if_pos (by omega), if_pos (by omega)]
  · intro E beq s1 s2 h1 h2
    rw [EqualS, GoSlice.toList, GoSlice.toList, h1, h2]
    rfl

/-- Witness for the amended C5: reflexivity at `[1,2]` over `Nat`,
symmetry at `([1],[2])`, and a nil (`⟨[],0⟩`) versus empty non-nil
(`⟨[7],0⟩`) pair. -/
theorem equal_spec_amended_wit :
    Equal (fun a b : Nat => a == b) [1, 2] [1, 2] = true ∧
    Equal (fun a b : Nat => a == b) [1] [2] =
      Equal (fun a b : Nat => a == b) [2] [1] ∧
    EqualS (fun a b : Nat => a == b) ⟨[], 0⟩ ⟨[7], 0⟩ = true :=
  ⟨equal_spec_amended.1 Nat _ [1, 2] (by decide),
   equal_spec_amended.2.1 Nat _ (by intro a b; exact Bool.beq_comm) [1] [2],
   equal_spec_amended.2.2 Nat _ ⟨[], 0⟩ ⟨[7], 0⟩ rfl rfl⟩

/-- C8: `A.IntersectWith(B)` keeps exactly the elements of `A` that are in
`B`, reports `true` iff the cardinality shrank, and afterwards
`A.SubsetOf(B)` holds. -/
theorem intersectWith_spec {E : Type} [DecidableEq E] (s t : Finset E) :
    (∀ x, x ∈ (IntersectWith s t).1 ↔ x ∈ s ∧ x ∈ t) ∧
    ((IntersectWith s t).2 = true ↔ (IntersectWith s t).1.card < s.card) ∧
    SubsetOf (IntersectWith s t).1 t = true := by
  have hsub : (IntersectWith s t).1 ⊆ t := by
    intro x hx
    exact (Finset.mem_filter.1 hx).2
  refine ⟨?_, ?_, ?_⟩
  · intro x
    simp [IntersectWith, Finset.mem_filter]
  · show decide _ = true ↔ _
    simp only [decide_eq_true_eq]
    constructor
    · rintro ⟨x, hxs, hxt⟩
      apply Finset.card_lt_card
      rw [Finset.ssubset_iff_subset_ne]
      refine ⟨Finset.filter_subset _ s, fun he => hxt ?_⟩
      have hx : x ∈ (IntersectWith s t).1 := by rw [he]; exact hxs
      exact (Finset.mem_filter.1 hx).2
    · intro hcard
      by_contra hno
      push_neg at hno
      have he : Finset.filter (fun x => x ∈ t) s = s :=
        Finset.filter_true_of_mem fun x hx => hno x hx
      rw [IntersectWith] at hcard
      simp only [he] at hcard
      exact absurd hcard (lt_irrefl _)
  · rw [SubsetOf, if_neg (Nat.not_lt.2 (Finset.card_le_card hsub))]
    simp only [decide_eq_true_eq]
    intro x hx
    exact hsub hx

/-- Witness for C8 at `A = {1,2,3}`, `B = {2,3,4}`. -/
theorem intersectWith_spec_wit :
    (∀ x, x ∈ (IntersectWith ({1, 2, 3} : Finset Nat) {2, 3, 4}).1 ↔
      x ∈ ({1, 2, 3} : Finset Nat) ∧ x ∈ ({2, 3, 4} : Finset Nat)) ∧
    ((IntersectWith ({1, 2, 3} : Finset Nat) {2, 3, 4}).2 = true ↔
      (IntersectWith ({1, 2, 3} : Finset Nat) {2, 3, 4}).1.card <
        ({1, 2, 3} : Finset Nat).card) ∧
    SubsetOf (IntersectWith ({1, 2, 3} : Finset Nat) {2, 3, 4}).1 {2, 3, 4} = true :=
  intersectWith_spec {1, 2, 3} {2, 3, 4}

/-- Auxiliary for C9: the element counts across all worker outputs add up
to the input count, from any starting send position. -/
theorem fanOut_count_aux {E : Type} [DecidableEq E] (n : Nat) (d : Nat → Fin n)
    (v : E) : ∀ (input : List E) (idx : Nat),
    (∑ k : Fin n, (FanOut n d k input idx).count v) = input.count v := by
  intro input
  induction input with
  | nil =>
    intro idx
    simp [FanOut]
  | cons a rest ih =>
    intro idx
    simp only [FanOut, List.count_append]
    rw [Finset.sum_add_distrib]
    have h1 : (∑ k : Fin n, ((if d idx = k then [a] else []) : List E).count v) =
        [a].count v := by
      rw [Finset.sum_congr rfl
        (fun k _ => show ((if d idx = k then [a] else []) : List E).count v =
          if d idx = k then [a].count v else 0 by split <;> simp)]
      rw [Finset.sum_ite_eq]
      simp
    rw [h1, ih (idx + 1)]
    simp [List.count_cons]
    omega

/-- C9: with no cancellation, every element of the input is delivered to
exactly one of the `n` outputs of `FanOut`, exactly once overall — for any
schedule `d` of the race between the workers receiving on the shared input
channel, the per-element counts across all `n` (closed, hence complete)
outputs sum to the input count. -/
theorem fanOut_exactly_once {E : Type} [DecidableEq E] (n : Nat)
    (d : Nat → Fin n) (input : List E) (v : E) :
    (∑ k : Fin n, (FanOut n d k input 0).count v) = input.count v :=
  fanOut_count_aux n d v input 0

/-- Witness for C9 at `n = 2`, round-robin schedule, input `[10,20,30]`. -/
theorem fanOut_exactly_once_wit :
    (∑ k : Fin 2,
      (FanOut 2 (fun idx => ⟨idx % 2, Nat.mod_lt _ (by norm_num)⟩) k
        [10, 20, 30] 0).count 10) = ([10, 20, 30] : List Nat).count 10 :=
  fanOut_exactly_once 2 _ [10, 20, 30] 10

/-- Auxiliary: under any element ordering, the running maximum is the seed
or a list element. -/
theorem foldl_max_mem {E : Type} (lt : E → E → Bool) (l : List E) : ∀ a : E,
    l.foldl (fun m v => if lt m v then v else m) a = a ∨
    l.foldl (fun m v => if lt m v then v else m) a ∈ l := by
  induction l with
  | nil => intro a; left; rfl
  | cons x t ih =>
    intro a
    rw [List.foldl_cons]
    rcases ih (if lt a x then x else a) with h | h
    · rw [h]
      split
      · right; exact List.mem_cons_self x t
      · left; rfl
    · right; exact List.mem_cons_of_mem x h

/-- Auxiliary: under any element ordering, the running minimum is the seed
or a list element. -/
theorem foldl_min_mem {E : Type} (lt : E → E → Bool) (l : List E) : ∀ a : E,
    l.foldl (fun m v => if lt v m then v else m) a = a ∨
    l.foldl (fun m v => if lt v m then v else m) a ∈ l := by
  induction l with
  | nil => intro a; left; rfl
  | cons x t ih =>
    intro a
    rw [List.foldl_cons]
    rcases ih (if lt x a then x else a) with h | h
    · rw [h]
      split
      · right; exact List.mem_cons_self x t
      · left; rfl
    · right; exact List.mem_cons_of_mem x h

/-- Auxiliary: over a linear order, the running maximum bounds the seed
and every element. -/
theorem foldl_max_ge {E : Type} [LinearOrder E] (l : List E) : ∀ a : E,
    a ≤ l.foldl (fun m v => if decide (m < v) then v else m) a ∧
    ∀ v ∈ l, v ≤ l.foldl (fun m v => if decide (m < v) then v else m) a := by
  induction l with
  | nil =>
    intro a
    exact ⟨le_refl a, by simp⟩
  | cons x t ih =>
    intro a
    rw [List.foldl_cons]
    obtain ⟨h1, h2⟩ := ih (if decide (a < x) then x else a)
    have hax : a ≤ if decide (a < x) then x else a := by
      split
      · next h => exact le_of_lt (of_decide_eq_true h)
      · exact le_refl a
    have hxx : x ≤ if decide (a < x) then x else a := by
      split
      · exact le_refl x
      · next h => exact le_of_not_lt (by simpa using h)
    refine ⟨le_trans hax h1, ?_⟩
    intro v hv
    rcases List.mem_cons.1 hv with rfl | hv
    · exact le_trans hxx h1
    · exact h2 v hv

/-- Auxiliary: over a linear order, the running minimum lower-bounds the
seed and every element. -/
theorem foldl_min_le {E : Type} [LinearOrder E] (l : List E) : ∀ a : E,
    l.foldl (fun m v => if decide (v < m) then v else m) a ≤ a ∧
    ∀ v ∈ l, l.foldl (fun m v => if decide (v < m) then v else m) a ≤ v := by
  induction l with
  | nil =>
    intro a
    exact ⟨le_refl a, by simp⟩
  | cons x t ih =>
    intro a
    rw [List.foldl_cons]
    obtain ⟨h1, h2⟩ := ih (if decide (x < a) then x else a)
    have hax : (if decide (x < a) then x else a) ≤ a := by
      split
      · next h => exact le_of_lt (of_decide_eq_true h)
      · exact le_refl a
    have hxx : (if decide (x < a) then x else a) ≤ x := by
      split
      · exact le_refl x
      · next h => exact le_of_not_lt (by simpa using h)
    refine ⟨le_trans h1 hax, ?_⟩
    intro v hv
    rcases List.mem_cons.1 hv with rfl | hv
    · exact le_trans h1 hxx
    · exact h2 v hv

/-- C10 as stated is false of the code: `constraints.Ordered` admits
`float64`, and over floats `Max(NaN, 5.0)` returns `NaN`, which is not
greater than or equal to the element `5.0` (Go's `<=` is false at a NaN);
`Min(NaN, 5.0)` likewise returns `NaN`, which does not lower-bound `5.0`. -/
theorem max_min_nan_cex :
    Max F64.blt [F64.nan, F64.val 5] = some F64.nan ∧
    F64.ble (F64.val 5) F64.nan = false ∧
    Min F64.blt [F64.nan, F64.val 5] = some F64.nan ∧
    F64.ble F64.nan (F64.val 5) = false :=
  ⟨rfl, rfl, rfl, rfl⟩

/-- C10 amended: under Go's `<` at any `constraints.Ordered` element type
(every ordering `lt`, `float64` included) `Max` and `Min` fault on an empty
argument list (the seed read `s[0]` is out of range) and return an element
of a non-empty one; the returned element additionally bounds every element
— from above for `Max`, from below for `Min` — whenever the element's `<`
is a strict total order, which holds for every `Ordered` type except
`float64` sequences containing NaN. -/
theorem max_min_spec :
    (∀ (E : Type) (lt : E → E → Bool),
      Max lt ([] : List E) = none ∧ Min lt ([] : List E) = none) ∧
    (∀ (E : Type) (lt : E → E → Bool) (s : List E), s ≠ [] →
      (∃ m, Max lt s = some m ∧ m ∈ s) ∧ (∃ m, Min lt s = some m ∧ m ∈ s)) ∧
    (∀ (E : Type) [LinearOrder E] (s : List E), s ≠ [] →
      (∃ m, Max (fun a b => decide (a < b)) s = some m ∧ m ∈ s ∧
        ∀ v ∈ s, v ≤ m) ∧
      (∃ m, Min (fun a b => decide (a < b)) s = some m ∧ m ∈ s ∧
        ∀ v ∈ s, m ≤ v)) := by
  refine ⟨fun E lt => ⟨rfl, rfl⟩, ?_, ?_⟩
  · intro E lt s hne
    obtain ⟨x, t, rfl⟩ := List.exists_cons_of_ne_nil hne
    constructor
    · refine ⟨_, rfl, ?_⟩
      rcases foldl_max_mem lt (x :: t) x with h | h
      · rw [h]; exact List.mem_cons_self x t
      · exact h
    · refine ⟨_, rfl, ?_⟩
      rcases foldl_min_mem lt (x :: t) x with h | h
      · rw [h]; exact List.mem_cons_self x t
      · exact h
  · intro E _ s hne
    obtain ⟨x, t, rfl⟩ := List.exists_cons_of_ne_nil hne
    constructor
    · refine ⟨_, rfl, ?_, (foldl_max_ge (x :: t) x).2⟩
      rcases foldl_max_mem (fun a b => decide (a < b)) (x :: t) x with h | h
      · rw [h]; exact List.mem_cons_self x t
      · exact h
    · refine ⟨_, rfl, ?_, (foldl_min_le (x :: t) x).2⟩
      rcases foldl_min_mem (fun a b => decide (a < b)) (x :: t) x with h | h
      · rw [h]; exact List.mem_cons_self x t
      · exact h

/-- Witness for the amended C10: the ordered bound at `s = [2,1,3]` over
`Nat`, and membership at a NaN-bearing `float64` list. -/
theorem max_min_spec_wit :
    ((∃ m, Max (fun a b : Nat => decide (a < b)) [2, 1, 3] = some m ∧
      m ∈ [2, 1, 3] ∧ ∀ v ∈ [2, 1, 3], v ≤ m) ∧
    (∃ m, Min (fun a b : Nat => decide (a < b)) [2, 1, 3] = some m ∧
      m ∈ [2, 1, 3] ∧ ∀ v ∈ ([2, 1, 3] : List Nat), m ≤ v)) ∧
    (∃ m, Max F64.blt [F64.val 5, F64.nan] = some m ∧
      m ∈ [F64.val 5, F64.nan]) :=
  ⟨max_min_spec.2.2 Nat [2, 1, 3] (by decide),
   (max_min_spec.2.1 F64 F64.blt [F64.val 5, F64.nan] (by decide)).1⟩

/-- Auxiliary for C4: the indexed loop of `Compare` computes the claimed
recursive lexicographic comparison of the remaining suffixes. -/
theorem compareLoopGo_spec {E : Type} (lt : E → E → Bool) (s2 : List E) :
    ∀ (rest : List E) (i l1 : Nat), l1 = i + rest.length →
    compareLoopGo lt l1 s2 rest i = specCompareC4 lt rest (s2.drop i) := by
  intro rest
  induction rest with
  | nil =>
    intro i l1 hl
    rw [compareLoopGo]
    by_cases h : i < s2.length
    · rw [if_pos (by simp at hl; omega)]
      obtain ⟨b, t2, hbt⟩ := List.exists_cons_of_ne_nil
        (show s2.drop i ≠ [] by
          intro hnil
          rw [List.drop_eq_nil_iff] at hnil
          omega)
      rw [hbt]
      rfl
    · rw [if_neg (by simp at hl; omega), List.drop_eq_nil_of_le (by omega)]
      rfl
  | cons v1 rest ih =>
    intro i l1 hl
    rw [compareLoopGo]
    by_cases h : s2.length ≤ i
    · rw [if_pos h, List.drop_eq_nil_of_le h]
      rfl
    · push_neg at h
      rw [if_neg (by omega)]
      have hdrop : s2.drop i = s2[i] :: s2.drop (i + 1) :=
        List.drop_eq_getElem_cons h
      have hgetD : s2.getD i v1 = s2[i] := by
        simp [List.getD, List.getElem?_eq_getElem h]
      rw [hdrop]
      show (if lt v1 (s2.getD i v1) then _ else _) = _
      rw [hgetD, specCompareC4]
      split
      · rfl
      · split
        · rfl
        · exact ih (i + 1) l1 (by simp at hl ⊢; omega)

/-- C4: `Compare` computes the claimed lexicographic three-way result for
every element ordering — the first strictly comparing pair decides, a
strict prefix makes the shorter slice `-1` — and over `float64`, two
equal-length sequences that agree except at positionally matched NaNs
compare `0`, because a pair involving a NaN never yields a strict verdict. -/
theorem compare_spec :
    (∀ (E : Type) (lt : E → E → Bool) (s1 s2 : List E),
      Compare lt s1 s2 = specCompareC4 lt s1 s2) ∧
    (∀ s1 s2 : List F64, s1.length = s2.length →
      (∀ k, k < s1.length →
        s1.getD k F64.nan = s2.getD k F64.nan ∨
        ((s1.getD k F64.nan).isNan = true ∧ (s2.getD k F64.nan).isNan = true)) →
      Compare F64.blt s1 s2 = 0) := by
  have hmain : ∀ (E : Type) (lt : E → E → Bool) (s1 s2 : List E),
      Compare lt s1 s2 = specCompareC4 lt s1 s2 := by
    intro E lt s1 s2
    rw [Compare, compareLoopGo_spec lt s2 s1 0 s1.length (by simp),
      List.drop_zero]
  refine ⟨hmain, ?_⟩
  intro s1 s2 hlen hmatch
  rw [hmain]
  clear hmain
  induction s1 generalizing s2 with
  | nil =>
    cases s2 with
    | nil => rfl
    | cons b t2 => simp at hlen
  | cons a t1 ih =>
    cases s2 with
    | nil => simp at hlen
    | cons b t2 =>
      have h0 := hmatch 0 (by simp)
      simp only [List.getD_cons_zero] at h0
      have hab : a = b := by
        rcases h0 with h | ⟨h1, h2⟩
        · exact h
        · cases a with
          | nan =>
            cases b with
            | nan => rfl
            | val q => simp [F64.isNan] at h2
          | val q => simp [F64.isNan] at h1
      subst hab
      have hlt : F64.blt a a = false := by
        cases a with
        | nan => rfl
        | val q => simp [F64.blt]
      rw [specCompareC4, if_neg (by simp [hlt]), if_neg (by simp [hlt])]
      exact ih t2 (by simpa using hlen)
        (fun k hk => by simpa [List.getD_cons_succ] using hmatch (k + 1) (by simp; omega))

/-- Witness for C4 at the NaN-matched pair `([NaN,1],[NaN,1])`. -/
theorem compare_spec_wit :
    Compare F64.blt [F64.nan, F64.val 1] [F64.nan, F64.val 1] = 0 :=
  compare_spec.2 [F64.nan, F64.val 1] [F64.nan, F64.val 1] (by decide) (by decide)

/-- Auxiliary: adjacent dedup of a list of at most one element is itself. -/
theorem dedupRuns_short {E : Type} [DecidableEq E] (l : List E)
    (h : l.length ≤ 1) : dedupRuns l = l := by
  match l with
  | [] => rfl
  | [x] => rfl
  | x :: y :: t => simp at h

/-- Auxiliary: appending one element to the scanned suffix keeps it exactly
when it differs from the last scanned element. -/
theorem dedupRunsAux_concat {E : Type} [DecidableEq E] :
    ∀ (t : List E) (prev a : E),
    dedupRunsAux prev (t ++ [a]) =
      dedupRunsAux prev t ++ (if a = t.getLastD prev then [] else [a]) := by
  intro t
  induction t with
  | nil =>
    intro prev a
    show dedupRunsAux prev [a] = dedupRunsAux prev [] ++ _
    rw [dedupRunsAux, dedupRunsAux, dedupRunsAux, List.getLastD_nil]
    split
    · rfl
    · rfl
  | cons y t ih =>
    intro prev a
    show dedupRunsAux prev (y :: (t ++ [a])) = dedupRunsAux prev (y :: t) ++ _
    rw [dedupRunsAux, dedupRunsAux, List.getLastD_cons, ih y a]
    split
    · rfl
    · simp

/-- Auxiliary: adjacent dedup of a snoc keeps the new element exactly when
it differs from the previous last element. -/
theorem dedupRuns_concat {E : Type} [DecidableEq E] (l : List E) (a z : E)
    (hl : l ≠ []) :
    dedupRuns (l ++ [a]) =
      dedupRuns l ++ (if a = l.getLastD z then [] else [a]) := by
  match l, hl with
  | x :: t, _ =>
    show dedupRuns (x :: (t ++ [a])) = dedupRuns (x :: t) ++ _
    rw [dedupRuns, dedupRuns, dedupRunsAux_concat t x a, List.getLastD_cons]
    simp

/-- Auxiliary: `take (n+1)` appends the element at index `n`. -/
theorem take_succ_getD {E : Type} (l : List E) (n : Nat) (z : E)
    (h : n < l.length) : l.take (n + 1) = l.take n ++ [l.getD n z] := by
  rw [List.take_succ]
  simp [List.getD, List.get?_eq_getElem?, List.getElem?_eq_getElem h]

/-- Auxiliary: the last element of `take j` is the element at index `j-1`. -/
theorem take_getLastD {E : Type} (l : List E) (z : E) (j : Nat)
    (h1 : 1 ≤ j) (h2 : j ≤ l.length) :
    (l.take j).getLastD z = l.getD (j - 1) z := by
  obtain ⟨m, rfl⟩ : ∃ m, j = m + 1 := ⟨j - 1, by omega⟩
  rw [take_succ_getD l m z (by omega), List.getLastD_concat]
  simp

/-- Auxiliary: setting index `i` and taking `i+1` slots appends the new
element to the first `i` slots. -/
theorem set_take_succ {E : Type} (l : List E) (i : Nat) (x : E)
    (h : i < l.length) : (l.set i x).take (i + 1) = l.take i ++ [x] := by
  rw [List.set_eq_take_append_cons_drop, if_pos h]
  have hlt : (l.take i).length = i := List.length_take_of_le (by omega)
  have hstep : (l.take i ++ x :: l.drop (i + 1)).take (i + 1) =
      (l.take i ++ x :: l.drop (i + 1)).take ((l.take i).length + 1) := by
    rw [hlt]
  rw [hstep, List.take_append]
  simp

/-- Auxiliary: `getD` after `set` at a different index is unchanged. -/
theorem set_getD_ne {E : Type} (l : List E) (i k : Nat) (x z : E)
    (h : i ≠ k) : (l.set i x).getD k z = l.getD k z := by
  simp [List.getD, List.getElem?_set_ne h]

/-- The `Compact` loop invariant: starting from a buffer that agrees with
`orig` from position `i` on (and at the probe position `j-1`), whose first
`i` slots hold the dedup of `orig[0:j)`, running the remaining `n - j`
iterations produces the dedup of `orig[0:n)` in the first `i'` slots. -/
theorem compactLoop_invariant {E : Type} [DecidableEq E] (z : E)
    (orig : List E) (n : Nat) (hn : n ≤ orig.length) :
    ∀ (fuel : Nat) (buf : List E) (i j : Nat),
      fuel + j = n → 1 ≤ i → i ≤ j →
      buf.length = orig.length →
      (∀ k, i ≤ k → buf.getD k z = orig.getD k z) →
      buf.getD (j - 1) z = orig.getD (j - 1) z →
      buf.take i = dedupRuns (orig.take j) →
      (compactLoop z fuel buf i j).1.take (compactLoop z fuel buf i j).2 =
          dedupRuns (orig.take n) ∧
        (compactLoop z fuel buf i j).1.length = orig.length ∧
        (compactLoop z fuel buf i j).2 ≤ n := by
  intro fuel
  induction fuel with
  | zero =>
    intro buf i j h0 h1 h2 h3 h4 h5 h6
    have hj : j = n := by omega
    refine ⟨?_, h3, show i ≤ n by omega⟩
    show buf.take i = dedupRuns (orig.take n)
    rw [← hj]
    exact h6
  | succ fuel ih =>
    intro buf i j h0 h1 h2 h3 h4 h5 h6
    have hjn : j < n := by omega
    have hjo : j < orig.length := by omega
    have hib : i < buf.length := by omega
    have hbufj : buf.getD j z = orig.getD j z := h4 j h2
    have htk : orig.take (j + 1) = orig.take j ++ [orig.getD j z] :=
      take_succ_getD orig j z hjo
    have htkne : orig.take j ≠ [] := by
      intro hx
      have hlen0 : (orig.take j).length = 0 := by rw [hx]; rfl
      rw [List.length_take] at hlen0
      omega
    have hlast : (orig.take j).getLastD z = orig.getD (j - 1) z :=
      take_getLastD orig z j (by omega) (by omega)
    rw [compactLoop]
    by_cases hc : buf.getD (j - 1) z ≠ buf.getD j z
    · rw [if_pos hc]
      have hne : ¬(orig.getD j z = orig.getD (j - 1) z) := by
        rw [← h5, ← hbufj]
        exact fun he => hc he.symm
      have hstep : dedupRuns (orig.take (j + 1)) =
          dedupRuns (orig.take j) ++ [orig.getD j z] := by
        rw [htk, dedupRuns_concat _ _ z htkne, hlast, if_neg hne]
      by_cases hji : j ≠ i
      · rw [if_pos hji]
        have c4 : (buf.set i (buf.getD j z)).length = orig.length := by
          rw [List.length_set]
          exact h3
        have c5 : ∀ k, i + 1 ≤ k →
            (buf.set i (buf.getD j z)).getD k z = orig.getD k z := by
          intro k hk
          rw [set_getD_ne _ _ _ _ _ (by omega)]
          exact h4 k (by omega)
        have c6 : (buf.set i (buf.getD j z)).getD (j + 1 - 1) z =
            orig.getD (j + 1 - 1) z := by
          show (buf.set i (buf.getD j z)).getD j z = orig.getD j z
          rw [set_getD_ne _ _ _ _ _ (by omega)]
          exact hbufj
        have c7 : (buf.set i (buf.getD j z)).take (i + 1) =
            dedupRuns (orig.take (j + 1)) := by
          rw [set_take_succ _ _ _ hib, h6, hstep, hbufj]
        exact ih (buf.set i (buf.getD j z)) (i + 1) (j + 1) (by omega)
          (by omega) (by omega) c4 c5 c6 c7
      · rw [if_neg hji]
        push_neg at hji
        have c6 : buf.getD (j + 1 - 1) z = orig.getD (j + 1 - 1) z := by
          show buf.getD j z = orig.getD j z
          exact hbufj
        have hbi : buf.getD i z = orig.getD i z := by
          rw [← hji]
          exact hbufj
        have c7 : buf.take (i + 1) = dedupRuns (orig.take (j + 1)) := by
          rw [take_succ_getD buf i z hib, h6, hstep, hji, hbi]
        exact ih buf (i + 1) (j + 1) (by omega) (by omega) (by omega) h3
          (fun k hk => h4 k (by omega)) c6 c7
    · rw [if_neg hc]
      push_neg at hc
      have heq : orig.getD j z = orig.getD (j - 1) z := by
        rw [← h5, ← hbufj]
        exact hc.symm
      have hstep : dedupRuns (orig.take (j + 1)) = dedupRuns (orig.take j) := by
        rw [htk, dedupRuns_concat _ _ z htkne, hlast, if_pos heq]
        simp
      have c6 : buf.getD (j + 1 - 1) z = orig.getD (j + 1 - 1) z := by
        show buf.getD j z = orig.getD j z
        exact hbufj
      have c7 : buf.take i = dedupRuns (orig.take (j + 1)) := by
        rw [h6, hstep]
      exact ih buf i (j + 1) (by omega) (by omega) (by omega) h3 h4 c6 c7

/-- C6: `Compact` removes exactly the consecutive runs of adjacent-equal
elements, keeping the first element of each run, truncating to the
surviving length — not global deduplication, as the two concrete examples
from the specification show. -/
theorem compact_spec {E : Type} [DecidableEq E] (s : GoSlice E) (z : E)
    (hp : Bool) (hwf : s.WF) :
    ((Compact s z hp).toList = dedupRuns s.toList ∧
      (Compact s z hp).len = (dedupRuns s.toList).length) ∧
    (Compact (⟨[1, 1, 2, 3, 3, 4], 6⟩ : GoSlice Nat) 0 false).toList =
      [1, 2, 3, 4] ∧
    (Compact (⟨[1, 2, 1], 3⟩ : GoSlice Nat) 0 false).toList = [1, 2, 1] := by
  refine ⟨?_, by decide, by decide⟩
  have harr : s.len ≤ s.arr.length := hwf
  by_cases h2 : s.len < 2
  · rw [Compact, if_pos h2]
    have hshort : s.toList.length ≤ 1 := by
      rw [toList_length s hwf]
      omega
    rw [dedupRuns_short _ hshort, toList_length s hwf]
    exact ⟨rfl, rfl⟩
  · rw [Compact, if_neg h2]
    push_neg at h2
    have hinit : s.arr.take 1 = dedupRuns (s.arr.take 1) :=
      (dedupRuns_short _ (by simp [List.length_take])).symm
    obtain ⟨ha, hb, hc⟩ := compactLoop_invariant z s.arr s.len harr
      (s.len - 1) s.arr 1 1 (by omega) (by omega) (by omega) rfl
      (fun k _ => rfl) rfl hinit
    constructor
    · show (zeroTail _ _ _ _ _ _).take (compactLoop z (s.len - 1) s.arr 1 1).2 =
        dedupRuns s.toList
      rw [zeroTail_take _ _ _ _ _ _ _ (by omega) (by omega)]
      exact ha
    · show (compactLoop z (s.len - 1) s.arr 1 1).2 = (dedupRuns s.toList).length
      have := congrArg List.length ha
      rw [List.length_take_of_le (by omega)] at this
      exact this

/-- Witness for C6 at `s = ⟨[1,1,2,3,3,4],6⟩`. -/
theorem compact_spec_wit :
    (Compact (⟨[1, 1, 2, 3, 3, 4], 6⟩ : GoSlice Nat) 0 true).toList =
      dedupRuns (⟨[1, 1, 2, 3, 3, 4], 6⟩ : GoSlice Nat).toList ∧
    (Compact (⟨[1, 1, 2, 3, 3, 4], 6⟩ : GoSlice Nat) 0 true).len =
      (dedupRuns (⟨[1, 1, 2, 3, 3, 4], 6⟩ : GoSlice Nat).toList).length :=
  (compact_spec ⟨[1, 1, 2, 3, 3, 4], 6⟩ 0 true (by norm_num [GoSlice.WF])).1

end Spec2Proof
